import Mathlib

/-!
Verification of the dense-matrix kernel in src/src/Matrix.cpp (class Matrix:
resize / element access / checkDominant / inverse via Gauss-Jordan
elimination / transpose / operator+ / operator- / operator* / the
continuousMatrix flat-buffer interop).

Modelling conventions, chosen once and used throughout:
* C++ `double` values are embedded as exact rationals `ℚ`; the source's
  arithmetic (`+ - * /`, `abs`, comparisons against `_ZERO_LIMIT = 1.0e-9`)
  is translated operation by operation.
* A `Matrix` object is its `vector<vector<double>>` backing store together
  with the cached `nrows_` / `ncols_` fields.
* `size_t` loop-bound arithmetic is modelled exactly where it matters: the
  forward-elimination bound `nsize - 1` wraps modulo 2^64 (`sizeSub1`).
* Unchecked `operator[]` indexing is undefined behaviour in C++ when out of
  bounds.  Every execution the specification describes stays in bounds, and
  there the total accessors `gat`/`gset` (default 0 / no-op out of bounds)
  agree with the source.  The one read that a claim drives out of bounds -
  the forward-elimination pivot read `mat[k][k]` on an empty matrix - is
  modelled as an explicit `boundsError` branch (`gget` returning `none`).
* C++ exceptions become `Except MErr`; the error kinds are the
  specification's `ShapeMismatch`, `SingularMatrix`, `MalformedInput`, plus
  `BoundsError` for the out-of-bounds branch above.
-/

namespace MatrixCpp

/-- Error kinds of §7 of the specification. -/
inductive MErr where
  | shapeMismatch
  | singularMatrix
  | malformedInput
  | boundsError

/-- `abs(double)`: absolute value of an exact rational. -/
def qabs (q : ℚ) : ℚ := if q < 0 then -q else q

/-- `static const double _ZERO_LIMIT = 1.0e-9;` -/
def ZERO_LIMIT : ℚ := 1 / 1000000000

/-- The `vector<vector<double>>` backing store. -/
abbrev Grid := List (List ℚ)

/-- Checked double-index read: `some` of the cell when both indices are in
bounds, `none` otherwise (the out-of-bounds branch of unchecked C++
indexing). -/
def gget (g : Grid) (i j : Nat) : Option ℚ :=
  g[i]?.bind (fun row => row[j]?)

/-- Total double-index read; agrees with the source on every in-bounds
access and returns 0 out of bounds. -/
def gat (g : Grid) (i j : Nat) : ℚ :=
  (gget g i j).getD 0

/-- Total double-index write; agrees with the source on every in-bounds
access and is a no-op out of bounds. -/
def gset (g : Grid) (i j : Nat) (v : ℚ) : Grid :=
  g.set i ((g[i]?.getD []).set j v)

/-- Rectangularity of a backing store: `r` rows, each of length `c`. -/
def WFg (g : Grid) (r c : Nat) : Prop :=
  g.length = r ∧ ∀ row ∈ g, row.length = c

/-- `class Matrix : public vector<vector<double>>` with its cached shape
fields `nrows_` and `ncols_`. -/
structure Matrix where
  nrows : Nat
  ncols : Nat
  data : Grid

/-- `(*this)[i][j]`: unchecked element read, total model. -/
def Matrix.entry (m : Matrix) (i j : Nat) : ℚ := gat m.data i j

/-- Invariant of §3: the cached shape matches the backing store and the
store is rectangular. -/
def Matrix.WF (m : Matrix) : Prop := WFg m.data m.nrows m.ncols

/-- `std::vector::resize(n)` with fill value `fill`: keeps the first
`min(n, size)` elements, appends copies of `fill` to reach length `n`. -/
def vecResize {α : Type} (v : List α) (n : Nat) (fill : α) : List α :=
  v.take n ++ List.replicate (n - v.length) fill

/-- `Matrix::resize(nrows, ncols)`: resize the row vector (new rows empty),
then resize every row to `ncols` with fill 0, then store the shape. -/
def Matrix.resize (m : Matrix) (r c : Nat) : Matrix :=
  ⟨r, c, (vecResize m.data r []).map (fun row => vecResize row c 0)⟩

/-- `Matrix::Matrix()`: default-constructed, empty backing store.
(The class declaration lives in Matrix.h, not part of the sources here;
per §3 of the specification a Matrix is "created empty (0×0)".) -/
def Matrix.mkEmpty : Matrix := ⟨0, 0, []⟩

/-- `Matrix::Matrix(nsize)`: square constructor, `resize(nsize, nsize)`. -/
def Matrix.mkSquare (n : Nat) : Matrix := Matrix.mkEmpty.resize n n

/-- `Matrix::Matrix(nrows, ncols)`: `resize(nrows, ncols)`. -/
def Matrix.mkShape (r c : Nat) : Matrix := Matrix.mkEmpty.resize r c

/-! ## checkDominant -/

/-- The `accumulate` call of `Matrix::checkDominant`: left fold of
`abs(lhs) + abs(rhs)` over a row, starting from `0.0`. -/
def absAccum (row : List ℚ) : ℚ :=
  row.foldl (fun lhs rhs => qabs lhs + qabs rhs) 0

/-- The row loop of `Matrix::checkDominant`, with its early `return false`:
`fuel` is the number of rows still to visit, `i` the current row index. -/
def domLoop (m : Matrix) (i fuel : Nat) : Bool :=
  match fuel with
  | 0 => true
  | fuel + 1 =>
    if m.entry i i < absAccum (m.data[i]?.getD []) - m.entry i i then false
    else domLoop m (i + 1) fuel

/-- `Matrix::checkDominant()`. -/
def Matrix.checkDominant (m : Matrix) : Bool := domLoop m 0 m.nrows

/-- `rowAbsSum` as the specification words it: the sum of the absolute
values of the whole row `i`. -/
def rowAbsSum (m : Matrix) (i : Nat) : ℚ :=
  ((m.data[i]?.getD []).map qabs).sum

/-! ## Arithmetic operators and transpose

Each of these builds a fresh result container and assigns every cell of it
exactly once, from cells of the (unmodified) operands; they are translated
as the corresponding cell-comprehension. -/

/-- `operator+(lhs, rhs)` (Matrix.cpp line 306). -/
def add (lhs rhs : Matrix) : Except MErr Matrix :=
  if lhs.ncols ≠ rhs.ncols ∨ lhs.nrows ≠ rhs.nrows then .error .shapeMismatch
  else .ok ⟨lhs.nrows, lhs.ncols,
    (List.range lhs.nrows).map (fun i =>
      (List.range lhs.ncols).map (fun j => lhs.entry i j + rhs.entry i j))⟩

/-- `operator-(lhs, rhs)` (Matrix.cpp line 331). -/
def sub (lhs rhs : Matrix) : Except MErr Matrix :=
  if lhs.ncols ≠ rhs.ncols ∨ lhs.nrows ≠ rhs.nrows then .error .shapeMismatch
  else .ok ⟨lhs.nrows, lhs.ncols,
    (List.range lhs.nrows).map (fun i =>
      (List.range lhs.ncols).map (fun j => lhs.entry i j - rhs.entry i j))⟩

/-- `operator*(lhs, rhs)` (Matrix.cpp line 355): the inner reduction is the
source's sequential `sum += lhs[i][k] * rhs[k][j]` loop. -/
def mul (lhs rhs : Matrix) : Except MErr Matrix :=
  if lhs.ncols ≠ rhs.nrows then .error .shapeMismatch
  else .ok ⟨lhs.nrows, rhs.ncols,
    (List.range lhs.nrows).map (fun i =>
      (List.range rhs.ncols).map (fun j =>
        (List.range lhs.ncols).foldl
          (fun sum k => sum + lhs.entry i k * rhs.entry k j) 0))⟩

/-- `Matrix::transpose()`: a fresh `ncols × nrows` matrix with
`mat_t[j][i] = (*this)[i][j]`. -/
def Matrix.transpose (m : Matrix) : Matrix :=
  ⟨m.ncols, m.nrows,
    (List.range m.ncols).map (fun j =>
      (List.range m.nrows).map (fun i => m.entry i j))⟩

/-! ## continuousMatrix interop -/

/-- `struct continuousMatrix`: the flat row-major interop record. -/
structure ContinuousMatrix where
  nrows : Nat
  ncols : Nat
  length : Nat
  data : List ℚ

/-- `Matrix::toContinuousMatrix()`: rejects an empty matrix, copies the rows
consecutively into a flat buffer of `nrows*ncols` doubles, and checks that
exactly that many values were copied. -/
def Matrix.toContinuousMatrix (m : Matrix) : Except MErr ContinuousMatrix :=
  if m.nrows = 0 ∨ m.ncols = 0 then .error .malformedInput
  else if m.data.flatten.length ≠ m.nrows * m.ncols then .error .malformedInput
  else .ok ⟨m.nrows, m.ncols, m.nrows * m.ncols, m.data.flatten⟩

/-- The `for_each(row_copy)` of `Matrix::fromContinuousMatrix`: overwrite
each row in turn with the next `row.size()` values of the flat buffer. -/
def copyRows (rows : List (List ℚ)) (data : List ℚ) : List (List ℚ) :=
  match rows with
  | [] => []
  | row :: rest => data.take row.length :: copyRows rest (data.drop row.length)

/-- `Matrix::fromContinuousMatrix(cm)`: rejects an empty record, resizes the
receiver to `cm.nrows × cm.ncols`, then overwrites every row from the flat
buffer. -/
def Matrix.fromContinuousMatrix (self : Matrix) (cm : ContinuousMatrix) :
    Except MErr Matrix :=
  if cm.nrows = 0 ∨ cm.ncols = 0 then .error .malformedInput
  else .ok ⟨(self.resize cm.nrows cm.ncols).nrows, (self.resize cm.nrows cm.ncols).ncols,
    copyRows (self.resize cm.nrows cm.ncols).data cm.data⟩

/-! ## The inversion engine

`Matrix::inverse()` works on a working copy `mat` of the receiver and an
accumulator `mat_inv` initialised to the identity, in three phases.  The
state threaded through the phases is the pair `(mat, mat_inv)` of backing
stores. -/

/-- `size_t` subtraction `nsize - 1`: wraps modulo 2^64 when `nsize = 0`
(the forward-elimination loop bound of Matrix.cpp line 155). -/
def sizeSub1 (n : Nat) : Nat := (n + (2 ^ 64 - 1)) % 2 ^ 64

/-- `Matrix mat_inv(nsize)` followed by `mat_inv[i][i] = 1` for every `i`:
the identity backing store. -/
def identityGrid (n : Nat) : Grid :=
  (List.range n).foldl (fun g i => gset g i i 1)
    (List.replicate n (List.replicate n (0 : ℚ)))

/-- Forward elimination, body of the row loop (`for i = k+1; i < nsize`):
`coef = mat[i][k] / mat[k][k]`, then `mat[i][j] -= mat[k][j] * coef` for
`j` in `[k, nsize)` and `mat_inv[i][j] -= mat_inv[k][j] * coef` for `j` in
`[0, nsize)`. -/
def fwdRowStep (nsize k : Nat) (st : Grid × Grid) (i : Nat) : Grid × Grid :=
  let coef := gat st.1 i k / gat st.1 k k
  let mat := (List.range (nsize - k)).foldl
    (fun m dj => gset m i (k + dj) (gat m i (k + dj) - gat m k (k + dj) * coef)) st.1
  let inv := (List.range nsize).foldl
    (fun m j => gset m i j (gat m i j - gat m k j * coef)) st.2
  (mat, inv)

/-- Forward elimination, the full row loop below pivot `k`. -/
def fwdElim (nsize : Nat) (st : Grid × Grid) (k : Nat) : Grid × Grid :=
  (List.range (nsize - (k + 1))).foldl
    (fun s di => fwdRowStep nsize k s (k + 1 + di)) st

/-- One iteration of the forward-elimination pivot loop: read the pivot
`mat[k][k]` (out of bounds on an empty working copy), fail with
`SingularMatrix` if its magnitude is below `_ZERO_LIMIT`, else eliminate
the rows below it. -/
def fwdStep (nsize : Nat) (st : Grid × Grid) (k : Nat) :
    Except MErr (Grid × Grid) :=
  match gget st.1 k k with
  | none => .error .boundsError
  | some pivot =>
    if qabs pivot < ZERO_LIMIT then .error .singularMatrix
    else .ok (fwdElim nsize st k)

/-- Exception propagation: a C++ `throw` aborts the remaining statements of
`inverse`, a normal result flows into them. -/
def chain {α β : Type} (x : Except MErr α) (f : α → Except MErr β) :
    Except MErr β :=
  match x with
  | .error e => .error e
  | .ok a => f a

theorem chain_error {α β : Type} (e : MErr) (f : α → Except MErr β) :
    chain (.error e) f = .error e := rfl

theorem chain_ok {α β : Type} (a : α) (f : α → Except MErr β) :
    chain (.ok a) f = f a := rfl

/-- The pivot loop `for (size_t k = 0; k < nsize - 1; k++)`: `fuel` is the
number of iterations left, so the loop runs for `k`, `k+1`, ... until the
fuel - set from the (wrapping) bound at the call site - is spent. -/
def fwdLoop (nsize : Nat) (st : Grid × Grid) (k fuel : Nat) :
    Except MErr (Grid × Grid) :=
  match fuel with
  | 0 => .ok st
  | fuel + 1 => chain (fwdStep nsize st k) (fun st1 => fwdLoop nsize st1 (k + 1) fuel)

theorem fwdLoop_zero (n k : Nat) (st : Grid × Grid) : fwdLoop n st k 0 = .ok st := rfl

theorem fwdLoop_succ (n k f : Nat) (st : Grid × Grid) :
    fwdLoop n st k (f + 1) =
      chain (fwdStep n st k) (fun st1 => fwdLoop n st1 (k + 1) f) := rfl

/-- Normalization, the pure division part of row `i`: `coef = mat[i][i]`,
`mat[i][j] /= coef` for `j` in `[i, nsize)`, `mat_inv[i][j] /= coef` for
`j` in `[0, nsize)`. -/
def normDiv (nsize : Nat) (st : Grid × Grid) (i : Nat) : Grid × Grid :=
  let coef := gat st.1 i i
  let mat := (List.range (nsize - i)).foldl
    (fun m dj => gset m i (i + dj) (gat m i (i + dj) / coef)) st.1
  let inv := (List.range nsize).foldl
    (fun m j => gset m i j (gat m i j / coef)) st.2
  (mat, inv)

/-- One iteration of the normalization loop: fail with `SingularMatrix` if
`|mat[i][i]| < _ZERO_LIMIT`, else divide row `i` through by it. -/
def normStep (nsize : Nat) (st : Grid × Grid) (i : Nat) :
    Except MErr (Grid × Grid) :=
  if qabs (gat st.1 i i) < ZERO_LIMIT then .error .singularMatrix
  else .ok (normDiv nsize st i)

/-- The normalization loop `for (size_t i = 0; i < nsize; i++)`. -/
def normLoop (nsize : Nat) (st : Grid × Grid) (i fuel : Nat) :
    Except MErr (Grid × Grid) :=
  match fuel with
  | 0 => .ok st
  | fuel + 1 => chain (normStep nsize st i) (fun st1 => normLoop nsize st1 (i + 1) fuel)

/-- Backward elimination, body of the inner `j` loop at `(i, j)`: first
`mat_inv[i][m] -= mat_inv[j][m] * mat[i][j]` for every `m` (using the
pre-update `mat[i][j]`), then `mat[i][j] -= mat[j][j] * mat[i][j]`. -/
def backCol (nsize i j : Nat) (st : Grid × Grid) : Grid × Grid :=
  let inv := (List.range nsize).foldl
    (fun m mm => gset m i mm (gat m i mm - gat m j mm * gat st.1 i j)) st.2
  let mat := gset st.1 i j (gat st.1 i j - gat st.1 j j * gat st.1 i j)
  (mat, inv)

/-- Backward elimination, the inner loop `for (int j = nsize - 1; j > i;
j--)`, in strictly descending `j`. -/
def backRow (nsize i : Nat) (st : Grid × Grid) : Grid × Grid :=
  (List.range (nsize - 1 - i)).foldl
    (fun s dj => backCol nsize i (nsize - 1 - dj) s) st

/-- Backward elimination, the outer loop `for (int i = nsize - 2; i >= 0;
i--)`: for `nsize ≤ 1` the loop body never runs. -/
def backward (nsize : Nat) (st : Grid × Grid) : Grid × Grid :=
  (List.range (nsize - 1)).foldl
    (fun s di => backRow nsize (nsize - 2 - di) s) st

/-- `Matrix::inverse()` (Matrix.cpp line 131): square-shape check, working
copy and identity accumulator, forward elimination (with the wrapping
`nsize - 1` bound), normalization, backward elimination; `mat_inv` is
returned as an `nsize × nsize` Matrix. -/
def Matrix.inverse (self : Matrix) : Except MErr Matrix :=
  if self.nrows ≠ self.ncols then .error .shapeMismatch
  else
    chain (fwdLoop self.nrows (self.data, identityGrid self.nrows) 0
        (sizeSub1 self.nrows)) (fun st1 =>
      chain (normLoop self.nrows st1 0 self.nrows) (fun st2 =>
        .ok ⟨self.nrows, self.nrows, (backward self.nrows st2).2⟩))

/-! ## Pure intermediate states of the elimination

The claims about when `inverse` reports `SingularMatrix` speak of the value
of the working copy `M` at the moment a pivot is inspected.  These
definitions compute those intermediate states by running the arithmetic of
each phase unconditionally (rational division is total), starting from the
same initial state as `inverse`. -/

/-- The state after unconditionally applying `d` forward-elimination steps
starting at pivot `k`. -/
def fwdIterFrom (nsize : Nat) (st : Grid × Grid) (k d : Nat) : Grid × Grid :=
  match d with
  | 0 => st
  | d + 1 => fwdIterFrom nsize (fwdElim nsize st k) (k + 1) d

/-- The state after unconditionally applying `d` normalization steps
starting at row `i`. -/
def normIterFrom (nsize : Nat) (st : Grid × Grid) (i d : Nat) : Grid × Grid :=
  match d with
  | 0 => st
  | d + 1 => normIterFrom nsize (normDiv nsize st i) (i + 1) d

/-- The working pair of `inverse` on `m` when forward elimination is about
to inspect pivot `k` (i.e. after the first `k` elimination steps). -/
def fwdState (m : Matrix) (k : Nat) : Grid × Grid :=
  fwdIterFrom m.nrows (m.data, identityGrid m.nrows) 0 k

/-- The working pair of `inverse` on `m` when normalization is about to
inspect row `i`: full forward elimination, then `i` normalization steps. -/
def normState (m : Matrix) (i : Nat) : Grid × Grid :=
  normIterFrom m.nrows (fwdState m (m.nrows - 1)) 0 i

/-! ## Helper lemmas: rectangularity is preserved by the elimination -/

theorem foldl_preserve {α β : Type} (P : α → Prop) (f : α → β → α) :
    ∀ (l : List β) (a : α), (∀ x b, P x → P (f x b)) → P a → P (l.foldl f a)
  | [], _, _, ha => ha
  | b :: l, a, h, ha => foldl_preserve P f l (f a b) h (h a b ha)

theorem WFg_row_length {g : Grid} {r c : Nat} (h : WFg g r c) {i : Nat} (hi : i < r) :
    (g[i]?.getD []).length = c := by
  obtain ⟨hl, hrows⟩ := h
  have hilen : i < g.length := by omega
  rw [List.getElem?_eq_getElem hilen]
  exact hrows _ (List.getElem_mem hilen)

theorem WFg_gset {g : Grid} {r c : Nat} (h : WFg g r c) (i j : Nat) (v : ℚ) :
    WFg (gset g i j v) r c := by
  obtain ⟨hl, hrows⟩ := h
  by_cases hi : i < g.length
  · refine ⟨by simpa [gset] using hl, ?_⟩
    intro row hrow
    rcases List.mem_or_eq_of_mem_set hrow with h1 | h2
    · exact hrows _ h1
    · subst h2
      rw [List.length_set, List.getElem?_eq_getElem hi]
      exact hrows _ (List.getElem_mem hi)
  · rw [gset, List.set_eq_of_length_le (by omega)]
    exact ⟨hl, hrows⟩

theorem gget_of_WFg {g : Grid} {r c : Nat} (h : WFg g r c) {i j : Nat}
    (hi : i < r) (hj : j < c) : gget g i j = some (gat g i j) := by
  have hilen : i < g.length := by
    have := h.1
    omega
  have hgi : g[i]? = some g[i] := List.getElem?_eq_getElem hilen
  have hrow : (g[i]?.getD []).length = c := WFg_row_length h hi
  rw [hgi] at hrow
  simp only [Option.getD_some] at hrow
  have hrlen : j < g[i].length := by omega
  rw [gget, hgi, Option.some_bind, List.getElem?_eq_getElem hrlen, gat, gget, hgi,
    Option.some_bind, List.getElem?_eq_getElem hrlen]
  rfl

/-- Rectangularity of the working pair of the inversion. -/
def WFp (n : Nat) (st : Grid × Grid) : Prop := WFg st.1 n n ∧ WFg st.2 n n

theorem WFp_fwdRowStep {n : Nat} {st : Grid × Grid} (h : WFp n st) (k i : Nat) :
    WFp n (fwdRowStep n k st i) := by
  obtain ⟨h1, h2⟩ := h
  constructor
  · exact foldl_preserve (fun g => WFg g n n) _ _ _ (fun x b hx => WFg_gset hx _ _ _) h1
  · exact foldl_preserve (fun g => WFg g n n) _ _ _ (fun x b hx => WFg_gset hx _ _ _) h2

theorem WFp_fwdElim {n : Nat} {st : Grid × Grid} (h : WFp n st) (k : Nat) :
    WFp n (fwdElim n st k) :=
  foldl_preserve (WFp n) _ _ _ (fun _ b hx => WFp_fwdRowStep hx k (k + 1 + b)) h

theorem WFg_identityGrid (n : Nat) : WFg (identityGrid n) n n := by
  refine foldl_preserve (fun g => WFg g n n) _ _ _ (fun x b hx => WFg_gset hx _ _ _) ?_
  constructor
  · simp
  · intro row hrow
    rw [List.eq_of_mem_replicate hrow]
    simp

/-! ## Characterization of the two checked elimination loops -/

theorem fwdStep_of_gget {n k : Nat} {st : Grid × Grid} {q : ℚ}
    (h : gget st.1 k k = some q) :
    fwdStep n st k =
      if qabs q < ZERO_LIMIT then .error .singularMatrix
      else .ok (fwdElim n st k) := by
  rw [fwdStep, h]

theorem fwdStep_of_gget_none {n k : Nat} {st : Grid × Grid}
    (h : gget st.1 k k = none) : fwdStep n st k = .error .boundsError := by
  rw [fwdStep, h]

/-- If no pivot inspected during the remaining forward iterations is below
the threshold, the loop completes and returns the unconditional iterate. -/
theorem fwdLoop_ok {n : Nat} (fuel : Nat) :
    ∀ (k : Nat) (st : Grid × Grid), WFp n st → k + fuel ≤ n →
    (∀ d, d < fuel → ¬ qabs (gat (fwdIterFrom n st k d).1 (k + d) (k + d)) < ZERO_LIMIT) →
    fwdLoop n st k fuel = .ok (fwdIterFrom n st k fuel) := by
  induction fuel with
  | zero => intro k st _ _ _; rfl
  | succ f ih =>
    intro k st hWF hkn hok
    have hk : k < n := by omega
    have hpiv := hok 0 (Nat.succ_pos f)
    simp only [fwdIterFrom, Nat.add_zero] at hpiv
    rw [fwdLoop_succ, fwdStep_of_gget (gget_of_WFg hWF.1 hk hk), if_neg hpiv, chain_ok]
    rw [ih (k + 1) (fwdElim n st k) (WFp_fwdElim hWF k) (by omega) ?_]
    · rfl
    · intro d hd
      have := hok (d + 1) (by omega)
      simp only [fwdIterFrom] at this
      have harith : k + (d + 1) = k + 1 + d := by omega
      rw [harith] at this
      exact this

/-- If some pivot inspected during the remaining forward iterations is below
the threshold, the loop reports `SingularMatrix`. -/
theorem fwdLoop_sing {n : Nat} (fuel : Nat) :
    ∀ (k : Nat) (st : Grid × Grid), WFp n st → k + fuel ≤ n →
    (∃ d, d < fuel ∧ qabs (gat (fwdIterFrom n st k d).1 (k + d) (k + d)) < ZERO_LIMIT) →
    fwdLoop n st k fuel = .error .singularMatrix := by
  induction fuel with
  | zero =>
    rintro k st _ _ ⟨d, hd, -⟩
    exact absurd hd (by omega)
  | succ f ih =>
    rintro k st hWF hkn ⟨d, hd, hsmall⟩
    have hk : k < n := by omega
    rw [fwdLoop_succ, fwdStep_of_gget (gget_of_WFg hWF.1 hk hk)]
    by_cases hp : qabs (gat st.1 k k) < ZERO_LIMIT
    · rw [if_pos hp, chain_error]
    · rw [if_neg hp, chain_ok]
      match d, hd, hsmall with
      | 0, _, hsmall =>
        simp only [fwdIterFrom, Nat.add_zero] at hsmall
        exact absurd hsmall hp
      | d + 1, hd, hsmall =>
        refine ih (k + 1) (fwdElim n st k) (WFp_fwdElim hWF k) (by omega) ⟨d, by omega, ?_⟩
        simp only [fwdIterFrom] at hsmall
        have harith : k + (d + 1) = k + 1 + d := by omega
        rw [harith] at hsmall
        exact hsmall

/-- The forward loop can only report `SingularMatrix` or `BoundsError`. -/
theorem fwdLoop_error_kind {n : Nat} (fuel : Nat) :
    ∀ (k : Nat) (st : Grid × Grid) (e : MErr), fwdLoop n st k fuel = .error e →
    e = .singularMatrix ∨ e = .boundsError := by
  induction fuel with
  | zero => intro k st e h; exact absurd h (by rw [fwdLoop_zero]; intro hc; cases hc)
  | succ f ih =>
    intro k st e h
    rw [fwdLoop_succ] at h
    cases hs : fwdStep n st k with
    | error e1 =>
      rw [hs, chain_error] at h
      have he : e1 = e := by cases h; rfl
      subst he
      cases hg : gget st.1 k k with
      | none =>
        rw [fwdStep_of_gget_none hg] at hs
        cases hs
        right
        rfl
      | some q =>
        rw [fwdStep_of_gget hg] at hs
        by_cases hq : qabs q < ZERO_LIMIT
        · rw [if_pos hq] at hs
          cases hs
          left
          rfl
        · rw [if_neg hq] at hs
          cases hs
    | ok st1 =>
      rw [hs, chain_ok] at h
      exact ih (k + 1) st1 e h

theorem normLoop_zero (n i : Nat) (st : Grid × Grid) :
    normLoop n st i 0 = .ok st := rfl

theorem normLoop_succ (n i f : Nat) (st : Grid × Grid) :
    normLoop n st i (f + 1) =
      chain (normStep n st i) (fun st1 => normLoop n st1 (i + 1) f) := rfl

theorem normStep_small {n i : Nat} {st : Grid × Grid}
    (h : qabs (gat st.1 i i) < ZERO_LIMIT) :
    normStep n st i = .error .singularMatrix := by
  rw [normStep, if_pos h]

theorem normStep_large {n i : Nat} {st : Grid × Grid}
    (h : ¬ qabs (gat st.1 i i) < ZERO_LIMIT) :
    normStep n st i = .ok (normDiv n st i) := by
  rw [normStep, if_neg h]

/-- If no diagonal inspected during the remaining normalization iterations
is below the threshold, the loop completes with the unconditional iterate. -/
theorem normLoop_ok {n : Nat} (fuel : Nat) :
    ∀ (i : Nat) (st : Grid × Grid),
    (∀ d, d < fuel → ¬ qabs (gat (normIterFrom n st i d).1 (i + d) (i + d)) < ZERO_LIMIT) →
    normLoop n st i fuel = .ok (normIterFrom n st i fuel) := by
  induction fuel with
  | zero => intro i st _; rfl
  | succ f ih =>
    intro i st hok
    have hdiag := hok 0 (Nat.succ_pos f)
    simp only [normIterFrom, Nat.add_zero] at hdiag
    rw [normLoop_succ, normStep_large hdiag, chain_ok]
    rw [ih (i + 1) (normDiv n st i) ?_]
    · rfl
    · intro d hd
      have := hok (d + 1) (by omega)
      simp only [normIterFrom] at this
      have harith : i + (d + 1) = i + 1 + d := by omega
      rw [harith] at this
      exact this

/-- If some diagonal inspected during the remaining normalization
iterations is below the threshold, the loop reports `SingularMatrix`. -/
theorem normLoop_sing {n : Nat} (fuel : Nat) :
    ∀ (i : Nat) (st : Grid × Grid),
    (∃ d, d < fuel ∧ qabs (gat (normIterFrom n st i d).1 (i + d) (i + d)) < ZERO_LIMIT) →
    normLoop n st i fuel = .error .singularMatrix := by
  induction fuel with
  | zero =>
    rintro i st ⟨d, hd, -⟩
    exact absurd hd (by omega)
  | succ f ih =>
    rintro i st ⟨d, hd, hsmall⟩
    by_cases hp : qabs (gat st.1 i i) < ZERO_LIMIT
    · rw [normLoop_succ, normStep_small hp, chain_error]
    · rw [normLoop_succ, normStep_large hp, chain_ok]
      match d, hd, hsmall with
      | 0, _, hsmall =>
        simp only [normIterFrom, Nat.add_zero] at hsmall
        exact absurd hsmall hp
      | d + 1, hd, hsmall =>
        refine ih (i + 1) (normDiv n st i) ⟨d, by omega, ?_⟩
        simp only [normIterFrom] at hsmall
        have harith : i + (d + 1) = i + 1 + d := by omega
        rw [harith] at hsmall
        exact hsmall

/-- The normalization loop can only report `SingularMatrix`. -/
theorem normLoop_error_kind {n : Nat} (fuel : Nat) :
    ∀ (i : Nat) (st : Grid × Grid) (e : MErr), normLoop n st i fuel = .error e →
    e = .singularMatrix := by
  induction fuel with
  | zero => intro i st e h; exact absurd h (by rw [normLoop_zero]; intro hc; cases hc)
  | succ f ih =>
    intro i st e h
    rw [normLoop_succ] at h
    by_cases hp : qabs (gat st.1 i i) < ZERO_LIMIT
    · rw [normStep_small hp, chain_error] at h
      cases h; rfl
    · rw [normStep_large hp, chain_ok] at h
      exact ih (i + 1) (normDiv n st i) e h

theorem sizeSub1_of_pos {n : Nat} (h1 : 1 ≤ n) (h2 : n ≤ 2 ^ 64) :
    sizeSub1 n = n - 1 := by
  unfold sizeSub1
  omega

/-- `Matrix.inverse` unfolded (definitional). -/
theorem inverse_def (m : Matrix) :
    m.inverse =
      if m.nrows ≠ m.ncols then .error .shapeMismatch
      else
        chain (fwdLoop m.nrows (m.data, identityGrid m.nrows) 0 (sizeSub1 m.nrows))
          (fun st1 => chain (normLoop m.nrows st1 0 m.nrows)
            (fun st2 => .ok ⟨m.nrows, m.nrows, (backward m.nrows st2).2⟩)) := rfl

/-- C2: `inverse()` reports `SingularMatrix` exactly when a pivot inspected
during forward elimination, or a diagonal inspected during normalization,
has magnitude below `_ZERO_LIMIT = 1e-9`; `M` is the working copy at the
moment of inspection (`fwdState` / `normState`).  The hypotheses are the
C++ domain: a well-formed square matrix with `1 ≤ n` rows (the `n = 0` case
is claim C10's out-of-bounds run) and `n` within `size_t` range.  In
particular inverting `[[1,2],[2,4]]` fails with `SingularMatrix`. -/
theorem claim2_inverse_singular_iff :
    (∀ m : Matrix, m.WF → m.nrows = m.ncols → 1 ≤ m.nrows → m.nrows ≤ 2 ^ 64 →
      (m.inverse = .error .singularMatrix ↔
        (∃ k, k < m.nrows - 1 ∧ qabs (gat (fwdState m k).1 k k) < ZERO_LIMIT) ∨
        (∃ i, i < m.nrows ∧ qabs (gat (normState m i).1 i i) < ZERO_LIMIT)))
    ∧ Matrix.inverse ⟨2, 2, [[1, 2], [2, 4]]⟩ = .error .singularMatrix := by
  constructor
  · intro m hWF hsq hpos hle
    have hn : sizeSub1 m.nrows = m.nrows - 1 := sizeSub1_of_pos hpos hle
    have hWFd : WFg m.data m.nrows m.ncols := hWF
    rw [← hsq] at hWFd
    have hWFp : WFp m.nrows (m.data, identityGrid m.nrows) :=
      ⟨hWFd, WFg_identityGrid m.nrows⟩
    rw [inverse_def, if_neg (show ¬ m.nrows ≠ m.ncols by omega), hn]
    by_cases hP1 : ∃ k, k < m.nrows - 1 ∧ qabs (gat (fwdState m k).1 k k) < ZERO_LIMIT
    · obtain ⟨k, hk1, hk2⟩ := hP1
      rw [fwdLoop_sing (m.nrows - 1) 0 _ hWFp (by omega)
        ⟨k, hk1, by simpa [fwdState] using hk2⟩, chain_error]
      exact iff_of_true rfl (.inl ⟨k, hk1, hk2⟩)
    · have hfok : ∀ d, d < m.nrows - 1 →
          ¬ qabs (gat (fwdIterFrom m.nrows (m.data, identityGrid m.nrows) 0 d).1
            (0 + d) (0 + d)) < ZERO_LIMIT := by
        intro d hd hsmall
        exact hP1 ⟨d, hd, by simpa [fwdState] using hsmall⟩
      rw [fwdLoop_ok (m.nrows - 1) 0 _ hWFp (by omega) hfok, chain_ok,
        show fwdIterFrom m.nrows (m.data, identityGrid m.nrows) 0 (m.nrows - 1)
          = fwdState m (m.nrows - 1) from rfl]
      by_cases hP2 : ∃ i, i < m.nrows ∧ qabs (gat (normState m i).1 i i) < ZERO_LIMIT
      · obtain ⟨i, hi1, hi2⟩ := hP2
        rw [normLoop_sing m.nrows 0 _ ⟨i, hi1, by simpa [normState] using hi2⟩, chain_error]
        exact iff_of_true rfl (.inr ⟨i, hi1, hi2⟩)
      · have hnok : ∀ d, d < m.nrows →
            ¬ qabs (gat (normIterFrom m.nrows (fwdState m (m.nrows - 1)) 0 d).1
              (0 + d) (0 + d)) < ZERO_LIMIT := by
          intro d hd hsmall
          exact hP2 ⟨d, hd, by simpa [normState] using hsmall⟩
        rw [normLoop_ok m.nrows 0 _ hnok, chain_ok]
        refine iff_of_false (by intro hc; cases hc) ?_
        rintro (h1 | h2)
        · exact hP1 h1
        · exact hP2 h2
  · with_unfolding_all rfl

/-! ## Shape-check characterizations -/

theorem add_shapeMismatch_iff (A B : Matrix) :
    add A B = .error .shapeMismatch ↔ ¬(A.nrows = B.nrows ∧ A.ncols = B.ncols) := by
  rw [add]
  by_cases h : A.ncols ≠ B.ncols ∨ A.nrows ≠ B.nrows
  · rw [if_pos h]
    exact iff_of_true rfl (by tauto)
  · rw [if_neg h]
    push_neg at h
    exact iff_of_false (by intro hc; cases hc) (by tauto)

theorem sub_shapeMismatch_iff (A B : Matrix) :
    sub A B = .error .shapeMismatch ↔ ¬(A.nrows = B.nrows ∧ A.ncols = B.ncols) := by
  rw [sub]
  by_cases h : A.ncols ≠ B.ncols ∨ A.nrows ≠ B.nrows
  · rw [if_pos h]
    exact iff_of_true rfl (by tauto)
  · rw [if_neg h]
    push_neg at h
    exact iff_of_false (by intro hc; cases hc) (by tauto)

theorem mul_shapeMismatch_iff (A B : Matrix) :
    mul A B = .error .shapeMismatch ↔ A.ncols ≠ B.nrows := by
  rw [mul]
  by_cases h : A.ncols ≠ B.nrows
  · rw [if_pos h]
    exact iff_of_true rfl h
  · rw [if_neg h]
    exact iff_of_false (by intro hc; cases hc) h

theorem inverse_shapeMismatch_iff (m : Matrix) :
    m.inverse = .error .shapeMismatch ↔ m.nrows ≠ m.ncols := by
  rw [inverse_def]
  by_cases h : m.nrows ≠ m.ncols
  · rw [if_pos h]
    exact iff_of_true rfl h
  · rw [if_neg h]
    refine iff_of_false ?_ h
    intro hc
    cases hf : fwdLoop m.nrows (m.data, identityGrid m.nrows) 0 (sizeSub1 m.nrows) with
    | error e =>
      rw [hf, chain_error] at hc
      cases hc
      rcases fwdLoop_error_kind _ _ _ _ hf with h1 | h1 <;> cases h1
    | ok st1 =>
      rw [hf, chain_ok] at hc
      cases hn : normLoop m.nrows st1 0 m.nrows with
      | error e =>
        rw [hn, chain_error] at hc
        cases hc
        cases normLoop_error_kind m.nrows 0 st1 _ hn
      | ok st2 =>
        rw [hn, chain_ok] at hc
        cases hc

/-! ## Claim theorems -/

/-- C1: inverting `[[4,7],[2,6]]` succeeds and yields exactly
`[[0.6,-0.7],[-0.2,0.4]]` under the exact rational embedding (so in
particular every cell is within `1e-9` of those values); the computation is
the three phases of `Matrix.inverse` (forward elimination, normalization,
backward elimination). -/
theorem claim1_inverse_4726 :
    Matrix.inverse ⟨2, 2, [[4, 7], [2, 6]]⟩ = .ok ⟨2, 2, [[0.6, -0.7], [-0.2, 0.4]]⟩
    ∧ (0.6 : ℚ) = 3 / 5 ∧ (-0.7 : ℚ) = -(7 / 10)
    ∧ (-0.2 : ℚ) = -(1 / 5) ∧ (0.4 : ℚ) = 2 / 5 := by
  refine ⟨by with_unfolding_all rfl, by norm_num, by norm_num, by norm_num, by norm_num⟩

/-- C5: each shape-checked operation reports `ShapeMismatch` exactly when
its shape precondition fails - `add`/`sub` need equal `nrows` and equal
`ncols`, `mul` needs `lhs.ncols = rhs.nrows`, `inverse` needs a square
receiver - and in particular a `2×3` plus a `3×2` and a `2×3` times a
`4×2` both fail with `ShapeMismatch`. -/
theorem claim5_shapeMismatch_exactly :
    (∀ A B : Matrix, add A B = .error .shapeMismatch ↔
      ¬(A.nrows = B.nrows ∧ A.ncols = B.ncols))
    ∧ (∀ A B : Matrix, sub A B = .error .shapeMismatch ↔
      ¬(A.nrows = B.nrows ∧ A.ncols = B.ncols))
    ∧ (∀ A B : Matrix, mul A B = .error .shapeMismatch ↔ A.ncols ≠ B.nrows)
    ∧ (∀ m : Matrix, m.inverse = .error .shapeMismatch ↔ m.nrows ≠ m.ncols)
    ∧ add (Matrix.mkShape 2 3) (Matrix.mkShape 3 2) = .error .shapeMismatch
    ∧ mul (Matrix.mkShape 2 3) (Matrix.mkShape 4 2) = .error .shapeMismatch :=
  ⟨add_shapeMismatch_iff, sub_shapeMismatch_iff, mul_shapeMismatch_iff,
    inverse_shapeMismatch_iff, rfl, rfl⟩

/-- C10: on the empty `0×0` matrix the square-shape check passes, yet
`inverse()` neither returns a matrix nor reports `ShapeMismatch` or
`SingularMatrix`: the `size_t` loop bound `nsize - 1` wraps to `2^64 - 1`,
so the forward-elimination loop is entered and its first pivot read
`mat[0][0]` indexes row 0 of the empty working copy - the out-of-bounds
branch (`boundsError`) of the embedding. -/
theorem claim10_inverse_empty_out_of_bounds :
    Matrix.mkEmpty.nrows = Matrix.mkEmpty.ncols
    ∧ sizeSub1 Matrix.mkEmpty.nrows = 2 ^ 64 - 1
    ∧ 0 < sizeSub1 Matrix.mkEmpty.nrows
    ∧ gget Matrix.mkEmpty.data 0 0 = none
    ∧ Matrix.mkEmpty.inverse = .error .boundsError := by
  refine ⟨rfl, by norm_num [sizeSub1, Matrix.mkEmpty], by norm_num [sizeSub1, Matrix.mkEmpty],
    rfl, by with_unfolding_all rfl⟩

/-! ## checkDominant characterization -/

theorem qabs_nonneg (q : ℚ) : 0 ≤ qabs q := by
  unfold qabs
  split <;> linarith

theorem qabs_of_nonneg {q : ℚ} (h : 0 ≤ q) : qabs q = q := by
  unfold qabs
  rw [if_neg (not_lt.mpr h)]

/-- The translated `abs(double)` is the absolute value. -/
theorem qabs_eq_abs (q : ℚ) : qabs q = |q| := by
  unfold qabs
  split
  · rw [abs_of_neg (by assumption)]
  · rw [abs_of_nonneg (by linarith [not_lt.mp (by assumption)])]

theorem absAccum_from (row : List ℚ) : ∀ a : ℚ, 0 ≤ a →
    row.foldl (fun lhs rhs => qabs lhs + qabs rhs) a = a + (row.map qabs).sum := by
  induction row with
  | nil => intro a _; simp
  | cons r rest ih =>
    intro a ha
    simp only [List.foldl_cons, List.map_cons, List.sum_cons]
    rw [ih (qabs a + qabs r) (by linarith [qabs_nonneg a, qabs_nonneg r]),
      qabs_of_nonneg ha]
    ring

/-- The source's `accumulate` with `abs(lhs) + abs(rhs)` computes the sum of
the absolute values of the row (the running sum is always nonnegative, so
the `abs` applied to it is the identity). -/
theorem absAccum_eq_sum (row : List ℚ) : absAccum row = (row.map qabs).sum := by
  simpa using absAccum_from row 0 le_rfl

theorem domLoop_zero (m : Matrix) (i : Nat) : domLoop m i 0 = true := rfl

theorem domLoop_succ (m : Matrix) (i f : Nat) :
    domLoop m i (f + 1) =
      if m.entry i i < absAccum (m.data[i]?.getD []) - m.entry i i then false
      else domLoop m (i + 1) f := rfl

theorem domLoop_iff (m : Matrix) : ∀ (fuel i : Nat),
    domLoop m i fuel = true ↔
    ∀ d, d < fuel →
      ¬ (m.entry (i + d) (i + d) <
        absAccum (m.data[i + d]?.getD []) - m.entry (i + d) (i + d)) := by
  intro fuel
  induction fuel with
  | zero =>
    intro i
    exact iff_of_true rfl (fun d hd => absurd hd (by omega))
  | succ f ih =>
    intro i
    rw [domLoop_succ]
    by_cases hc : m.entry i i < absAccum (m.data[i]?.getD []) - m.entry i i
    · rw [if_pos hc]
      refine iff_of_false (by simp) ?_
      intro hall
      exact hall 0 (by omega) (by simpa using hc)
    · rw [if_neg hc]
      rw [ih (i + 1)]
      constructor
      · intro h d hd
        match d, hd with
        | 0, _ => simpa using hc
        | d + 1, hd =>
          have := h d (by omega)
          have harith : i + 1 + d = i + (d + 1) := by omega
          rw [harith] at this
          exact this
      · intro h d hd
        have := h (d + 1) (by omega)
        have harith : i + (d + 1) = i + 1 + d := by omega
        rw [harith] at this
        exact this

/-- The source's per-row test `a[i][i] < rowAbsSum - a[i][i]` (no absolute
value on the subtracted diagonal) agrees with the specification's
`a[i][i] >= rowAbsSum - |a[i][i]|`, because `rowAbsSum` dominates
`|a[i][i]|`: when the diagonal is negative both tests fail. -/
theorem dom_row_iff {row : List ℚ} {a : ℚ} (hmem : a ∈ row) :
    (¬ (a < (row.map qabs).sum - a)) ↔ (row.map qabs).sum - qabs a ≤ a := by
  have hS : qabs a ≤ (row.map qabs).sum := by
    refine List.single_le_sum (fun x hx => ?_) _ (List.mem_map_of_mem qabs hmem)
    obtain ⟨y, -, rfl⟩ := List.mem_map.mp hx
    exact qabs_nonneg y
  rw [not_lt]
  by_cases h0 : 0 ≤ a
  · rw [qabs_of_nonneg h0]
  · have hneg : a < 0 := by linarith
    have hqa : qabs a = -a := by unfold qabs; rw [if_pos hneg]
    rw [hqa]
    constructor
    · intro h
      linarith
    · intro h
      linarith

/-- C3: for a well-formed square matrix, `checkDominant()` returns `true`
iff every row satisfies `a[i][i] ≥ rowAbsSum - |a[i][i]|` with
`rowAbsSum = Σ_j |a[i][j]|` over the whole row.  (`checkDominant` is a
plain function of the matrix value: pure and read-only by construction.) -/
theorem claim3_checkDominant_iff :
    ∀ m : Matrix, m.WF → m.nrows = m.ncols →
    (m.checkDominant = true ↔
      ∀ i, i < m.nrows → rowAbsSum m i - qabs (m.entry i i) ≤ m.entry i i) := by
  intro m hWF hsq
  rw [Matrix.checkDominant, domLoop_iff]
  have hstep : ∀ i, i < m.nrows →
      ((¬ (m.entry i i < absAccum (m.data[i]?.getD []) - m.entry i i)) ↔
        rowAbsSum m i - qabs (m.entry i i) ≤ m.entry i i) := by
    intro i hi
    have hWFd : WFg m.data m.nrows m.ncols := hWF
    have hrowlen : (m.data[i]?.getD []).length = m.ncols := WFg_row_length hWFd hi
    have hilen : i < m.data.length := by
      have := hWFd.1
      omega
    have hgi : m.data[i]? = some m.data[i] := List.getElem?_eq_getElem hilen
    have hii : i < m.data[i].length := by
      rw [hgi] at hrowlen
      simp only [Option.getD_some] at hrowlen
      omega
    have hentry : m.entry i i = m.data[i][i] := by
      rw [Matrix.entry, gat, gget, hgi, Option.some_bind, List.getElem?_eq_getElem hii]
      rfl
    have hrow : m.data[i]?.getD [] = m.data[i] := by rw [hgi]; rfl
    rw [absAccum_eq_sum, rowAbsSum, hrow, hentry]
    exact dom_row_iff (List.getElem_mem hii)
  constructor
  · intro h i hi
    exact (hstep i hi).mp (by simpa using h i hi)
  · intro h d hd
    have := (hstep d hd).mpr (h d hd)
    simpa using this

/-- Witness for C3 at the dominant matrix `[[5,1,1],[1,4,1],[1,1,3]]`. -/
theorem claim3_checkDominant_iff_witness :
    Matrix.checkDominant ⟨3, 3, [[5, 1, 1], [1, 4, 1], [1, 1, 3]]⟩ = true ↔
      ∀ i, i < (Matrix.mk 3 3 [[5, 1, 1], [1, 4, 1], [1, 1, 3]]).nrows →
        rowAbsSum ⟨3, 3, [[5, 1, 1], [1, 4, 1], [1, 1, 3]]⟩ i -
          qabs (Matrix.entry ⟨3, 3, [[5, 1, 1], [1, 4, 1], [1, 1, 3]]⟩ i i) ≤
          Matrix.entry ⟨3, 3, [[5, 1, 1], [1, 4, 1], [1, 1, 3]]⟩ i i :=
  claim3_checkDominant_iff ⟨3, 3, [[5, 1, 1], [1, 4, 1], [1, 1, 3]]⟩
    ⟨rfl, by decide⟩ rfl

/-! ## resize characterization -/

theorem gat_eq_getElem {g : Grid} {i j : Nat} (hilen : i < g.length)
    (hjlen : j < g[i].length) : gat g i j = g[i][j] := by
  rw [gat, gget, List.getElem?_eq_getElem hilen, Option.some_bind,
    List.getElem?_eq_getElem hjlen]
  rfl

theorem WFg_getElem_length {g : Grid} {r c : Nat} (h : WFg g r c) {i : Nat}
    (hilen : i < g.length) : g[i].length = c :=
  h.2 _ (List.getElem_mem hilen)

theorem vecResize_length {α : Type} (v : List α) (n : Nat) (fill : α) :
    (vecResize v n fill).length = n := by
  unfold vecResize
  rw [List.length_append, List.length_take, List.length_replicate]
  omega

theorem vecResize_getElem_lt {α : Type} (v : List α) {n i : Nat} (fill : α)
    (hi : i < n) (hv : i < v.length) : (vecResize v n fill)[i]? = v[i]? := by
  unfold vecResize
  rw [List.getElem?_append_left (by rw [List.length_take]; omega),
    List.getElem?_take_of_lt hi]

theorem vecResize_getElem_ge {α : Type} (v : List α) {n i : Nat} (fill : α)
    (hi : i < n) (hv : v.length ≤ i) : (vecResize v n fill)[i]? = some fill := by
  unfold vecResize
  rw [List.getElem?_append_right (by rw [List.length_take]; omega)]
  simp only [List.getElem?_replicate, List.length_take]
  rw [if_pos (by omega)]

/-- `resize` puts the matrix in shape `r × c`, preserving well-formedness;
cells inside the old shape keep their values (`std::vector::resize` keeps
the common prefix), cells outside it are zero-filled. -/
theorem resize_spec : ∀ (m : Matrix) (r c : Nat), m.WF →
    ((m.resize r c).nrows = r ∧ (m.resize r c).ncols = c ∧ (m.resize r c).WF ∧
      ∀ i j, i < r → j < c →
        (m.resize r c).entry i j =
          if i < m.nrows ∧ j < m.ncols then m.entry i j else 0) := by
  intro m r c hWF
  have hdlen : m.data.length = m.nrows := hWF.1
  refine ⟨rfl, rfl, ?_, ?_⟩
  · refine ⟨by simp [Matrix.resize, vecResize_length], ?_⟩
    intro row hrow
    simp only [Matrix.resize] at hrow
    obtain ⟨row0, -, rfl⟩ := List.mem_map.mp hrow
    exact vecResize_length row0 c 0
  · intro i j hi hj
    show gat ((vecResize m.data r []).map (fun row => vecResize row c 0)) i j = _
    by_cases hin : i < m.nrows
    · have hbase : (vecResize m.data r [])[i]? = some m.data[i] := by
        rw [vecResize_getElem_lt m.data [] hi (by omega),
          List.getElem?_eq_getElem (by omega)]
      have hrowlen : m.data[i].length = m.ncols :=
        WFg_getElem_length hWF (i := i) (by omega)
      rw [gat, gget, List.getElem?_map, hbase]
      simp only [Option.map_some', Option.some_bind]
      by_cases hjn : j < m.ncols
      · rw [vecResize_getElem_lt m.data[i] 0 hj (by omega),
          List.getElem?_eq_getElem (by omega : j < m.data[i].length)]
        rw [if_pos ⟨hin, hjn⟩, Matrix.entry,
          gat_eq_getElem (by omega) (by omega : j < m.data[i].length)]
        rfl
      · rw [vecResize_getElem_ge m.data[i] 0 hj (by omega)]
        rw [if_neg (by tauto)]
        rfl
    · have hbase : (vecResize m.data r [])[i]? = some [] :=
        vecResize_getElem_ge m.data [] hi (by omega)
      rw [gat, gget, List.getElem?_map, hbase]
      simp only [Option.map_some', Option.some_bind]
      rw [vecResize_getElem_ge [] 0 hj (by simp), if_neg (by tauto)]
      rfl

/-- C4 as frozen is false on the code: `std::vector::resize` preserves the
elements it keeps, so resizing `[[1,2],[3,4]]` to the same `2×2` shape
leaves every cell unchanged - cell `(0,0)` is `1`, not `0`. -/
theorem claim4_counterexample :
    Matrix.resize ⟨2, 2, [[1, 2], [3, 4]]⟩ 2 2 = ⟨2, 2, [[1, 2], [3, 4]]⟩
    ∧ Matrix.entry (Matrix.resize ⟨2, 2, [[1, 2], [3, 4]]⟩ 2 2) 0 0 = 1
    ∧ ((1 : ℚ) = 0 → False) :=
  ⟨rfl, rfl, by norm_num⟩

/-- C4 amended: `resize(r, c)` always succeeds (it is total) and afterwards
the matrix has shape `r × c`; cells that existed in both the old and the
new shape KEEP their values, and only the newly created cells are
zero-initialized. -/
theorem claim4_resize_amended :
    ∀ (m : Matrix) (r c : Nat), m.WF →
    ((m.resize r c).nrows = r ∧ (m.resize r c).ncols = c ∧ (m.resize r c).WF ∧
      ∀ i j, i < r → j < c →
        (m.resize r c).entry i j =
          if i < m.nrows ∧ j < m.ncols then m.entry i j else 0) :=
  resize_spec

/-- Witness for the amended C4: resizing the `2×2` matrix `[[1,2],[3,4]]`
to `3×3`. -/
theorem claim4_resize_amended_witness :
    (Matrix.resize ⟨2, 2, [[1, 2], [3, 4]]⟩ 3 3).nrows = 3
    ∧ (Matrix.resize ⟨2, 2, [[1, 2], [3, 4]]⟩ 3 3).ncols = 3
    ∧ (Matrix.resize ⟨2, 2, [[1, 2], [3, 4]]⟩ 3 3).WF
    ∧ ∀ i j, i < 3 → j < 3 →
        (Matrix.resize ⟨2, 2, [[1, 2], [3, 4]]⟩ 3 3).entry i j =
          if i < (Matrix.mk 2 2 [[1, 2], [3, 4]]).nrows ∧
              j < (Matrix.mk 2 2 [[1, 2], [3, 4]]).ncols then
            Matrix.entry ⟨2, 2, [[1, 2], [3, 4]]⟩ i j
          else 0 :=
  claim4_resize_amended ⟨2, 2, [[1, 2], [3, 4]]⟩ 3 3 ⟨rfl, by decide⟩

/-! ## Cell-comprehension grids, multiplication and transpose -/

theorem gat_build {r c : Nat} (f : Nat → Nat → ℚ) {i j : Nat} (hi : i < r) (hj : j < c) :
    gat ((List.range r).map (fun a => (List.range c).map (fun b => f a b))) i j
      = f i j := by
  rw [gat, gget, List.getElem?_map, List.getElem?_range hi]
  simp only [Option.map_some', Option.some_bind, List.getElem?_map,
    List.getElem?_range hj]
  rfl

theorem foldl_add_from (f : Nat → ℚ) (l : List Nat) : ∀ a : ℚ,
    l.foldl (fun s k => s + f k) a = a + (l.map f).sum := by
  induction l with
  | nil => intro a; simp
  | cons x xs ih =>
    intro a
    simp only [List.foldl_cons, List.map_cons, List.sum_cons, ih]
    ring

/-- Rebuilding one row from its cells. -/
theorem rebuild_row : ∀ (l : List ℚ) (c : Nat), l.length = c →
    (List.range c).map (fun j => l[j]?.getD 0) = l := by
  intro l
  induction l with
  | nil =>
    intro c h
    simp at h
    subst h
    rfl
  | cons x xs ih =>
    intro c h
    simp only [List.length_cons] at h
    subst h
    rw [List.range_succ_eq_map, List.map_cons, List.map_map]
    congr 1
    · simp
    · have hcomp : ((fun j => (x :: xs)[j]?.getD 0) ∘ Nat.succ) =
          (fun j => xs[j]?.getD 0) := by
        funext j
        simp [Function.comp]
      rw [hcomp]
      exact ih xs.length rfl

/-- Rebuilding a well-formed grid from its cells. -/
theorem rebuild_grid : ∀ (g : Grid) (r c : Nat), WFg g r c →
    (List.range r).map (fun i => (List.range c).map (fun j => gat g i j)) = g := by
  intro g
  induction g with
  | nil =>
    intro r c h
    have hr : r = 0 := by
      have := h.1
      simpa using this.symm
    subst hr
    rfl
  | cons row rest ih =>
    intro r c h
    obtain ⟨hl, hrows⟩ := h
    simp only [List.length_cons] at hl
    subst hl
    rw [List.range_succ_eq_map, List.map_cons, List.map_map]
    congr 1
    · have hrowlen : row.length = c := hrows row (List.mem_cons_self row rest)
      have hconv : (fun j => gat (row :: rest) 0 j) = (fun j => row[j]?.getD 0) := by
        funext j
        simp [gat, gget]
      rw [hconv]
      exact rebuild_row row c hrowlen
    · have hconv : ((fun i => (List.range c).map (fun j => gat (row :: rest) i j))
          ∘ Nat.succ) = (fun i => (List.range c).map (fun j => gat rest i j)) := by
        funext i
        simp [Function.comp, gat, gget]
      rw [hconv]
      exact ih rest.length c ⟨rfl, fun r2 hr2 => hrows _ (List.mem_cons_of_mem row hr2)⟩

/-- C6: with compatible shapes, `operator*` succeeds and the result is the
`A.nrows × B.ncols` matrix whose cell `[i][j]` is
`Σ_{k=0}^{A.ncols-1} A[i][k] * B[k][j]`. -/
theorem claim6_mul_spec : ∀ A B : Matrix, A.ncols = B.nrows →
    ∃ C : Matrix, mul A B = .ok C ∧ C.nrows = A.nrows ∧ C.ncols = B.ncols ∧
      ∀ i j, i < A.nrows → j < B.ncols →
        C.entry i j =
          ((List.range A.ncols).map (fun k => A.entry i k * B.entry k j)).sum := by
  intro A B h
  refine ⟨⟨A.nrows, B.ncols, (List.range A.nrows).map (fun a =>
    (List.range B.ncols).map (fun b =>
      (List.range A.ncols).foldl (fun sum k => sum + A.entry a k * B.entry k b) 0))⟩,
    by rw [mul, if_neg (by omega)], rfl, rfl, ?_⟩
  intro i j hi hj
  show gat ((List.range A.nrows).map (fun a => (List.range B.ncols).map (fun b =>
    (List.range A.ncols).foldl (fun sum k => sum + A.entry a k * B.entry k b) 0))) i j = _
  refine Eq.trans (gat_build _ hi hj) ?_
  simpa using foldl_add_from (fun k => A.entry i k * B.entry k j) (List.range A.ncols) 0

/-- Witness for C6: `[[1,2]] * [[3],[4]]`. -/
theorem claim6_mul_spec_witness :
    ∃ C : Matrix, mul ⟨1, 2, [[1, 2]]⟩ ⟨2, 1, [[3], [4]]⟩ = .ok C
      ∧ C.nrows = (Matrix.mk 1 2 [[1, 2]]).nrows
      ∧ C.ncols = (Matrix.mk 2 1 [[3], [4]]).ncols
      ∧ ∀ i j, i < (Matrix.mk 1 2 [[1, 2]]).nrows → j < (Matrix.mk 2 1 [[3], [4]]).ncols →
          C.entry i j = ((List.range (Matrix.mk 1 2 [[1, 2]]).ncols).map (fun k =>
            Matrix.entry ⟨1, 2, [[1, 2]]⟩ i k * Matrix.entry ⟨2, 1, [[3], [4]]⟩ k j)).sum :=
  claim6_mul_spec ⟨1, 2, [[1, 2]]⟩ ⟨2, 1, [[3], [4]]⟩ rfl

theorem transpose_entry (m : Matrix) {i j : Nat} (hi : i < m.nrows) (hj : j < m.ncols) :
    m.transpose.entry j i = m.entry i j := by
  show gat ((List.range m.ncols).map (fun a => (List.range m.nrows).map (fun b =>
    m.entry b a))) j i = _
  exact gat_build (fun a b => m.entry b a) hj hi

theorem transpose_transpose (m : Matrix) (hWF : m.WF) : m.transpose.transpose = m := by
  show Matrix.mk m.nrows m.ncols
    ((List.range m.nrows).map (fun a => (List.range m.ncols).map (fun b =>
      m.transpose.entry b a))) = m
  have h1 : (List.range m.nrows).map (fun a => (List.range m.ncols).map (fun b =>
      m.transpose.entry b a)) =
      (List.range m.nrows).map (fun a => (List.range m.ncols).map (fun b =>
        gat m.data a b)) := by
    refine List.map_congr_left (fun a ha => List.map_congr_left (fun b hb => ?_))
    exact (transpose_entry m (List.mem_range.mp ha) (List.mem_range.mp hb)).trans rfl
  rw [h1, rebuild_grid m.data m.nrows m.ncols hWF]

/-- C7: `transpose()` returns the `ncols × nrows` matrix with output cell
`[j][i]` equal to input cell `[i][j]`, and transposing twice gives back
exactly the original well-formed matrix (any shape, including empty). -/
theorem claim7_transpose : ∀ A : Matrix, A.WF →
    (A.transpose.nrows = A.ncols ∧ A.transpose.ncols = A.nrows ∧
      (∀ i j, i < A.nrows → j < A.ncols → A.transpose.entry j i = A.entry i j) ∧
      A.transpose.transpose = A) := by
  intro A hWF
  exact ⟨rfl, rfl, fun i j hi hj => transpose_entry A hi hj, transpose_transpose A hWF⟩

/-- Witness for C7 at the `2×3` matrix `[[1,2,3],[4,5,6]]` (and, through
its conjuncts, at the empty matrix by the same theorem). -/
theorem claim7_transpose_witness :
    (Matrix.transpose ⟨2, 3, [[1, 2, 3], [4, 5, 6]]⟩).nrows = 3
    ∧ (Matrix.transpose ⟨2, 3, [[1, 2, 3], [4, 5, 6]]⟩).ncols = 2
    ∧ (∀ i j, i < (Matrix.mk 2 3 [[1, 2, 3], [4, 5, 6]]).nrows →
        j < (Matrix.mk 2 3 [[1, 2, 3], [4, 5, 6]]).ncols →
        (Matrix.transpose ⟨2, 3, [[1, 2, 3], [4, 5, 6]]⟩).entry j i =
          Matrix.entry ⟨2, 3, [[1, 2, 3], [4, 5, 6]]⟩ i j)
    ∧ (Matrix.transpose (Matrix.transpose ⟨2, 3, [[1, 2, 3], [4, 5, 6]]⟩)) =
        ⟨2, 3, [[1, 2, 3], [4, 5, 6]]⟩ :=
  claim7_transpose ⟨2, 3, [[1, 2, 3], [4, 5, 6]]⟩ ⟨rfl, by decide⟩

/-! ## Flat-buffer interop: round trip -/

theorem resize_WF (m : Matrix) (r c : Nat) : (m.resize r c).WF := by
  refine ⟨by simp [Matrix.resize, vecResize_length], ?_⟩
  intro row hrow
  simp only [Matrix.resize] at hrow
  obtain ⟨row0, -, rfl⟩ := List.mem_map.mp hrow
  exact vecResize_length row0 c 0

theorem flatten_length : ∀ (g : Grid) (c : Nat), (∀ row ∈ g, row.length = c) →
    g.flatten.length = g.length * c := by
  intro g
  induction g with
  | nil => intro c _; simp
  | cons row rest ih =>
    intro c h
    rw [List.flatten_cons, List.length_append,
      ih c (fun x hx => h _ (List.mem_cons_of_mem _ hx)),
      h row (List.mem_cons_self _ _), List.length_cons]
    ring

/-- Row-major layout: in the flattened buffer, the value at offset
`i * c + j` is cell `[i][j]`. -/
theorem flatten_getElem : ∀ (g : Grid) (c : Nat), (∀ row ∈ g, row.length = c) →
    ∀ i j, i < g.length → j < c → g.flatten[i * c + j]?.getD 0 = gat g i j := by
  intro g
  induction g with
  | nil =>
    intro c _ i j hi _
    simp at hi
  | cons row rest ih =>
    intro c hrows i j hi hj
    have hrl : row.length = c := hrows _ (List.mem_cons_self _ _)
    rw [List.flatten_cons]
    cases i with
    | zero =>
      rw [Nat.zero_mul, Nat.zero_add, List.getElem?_append_left (by omega)]
      simp [gat, gget]
    | succ i2 =>
      have hge : row.length ≤ (i2 + 1) * c + j := by
        have : c ≤ (i2 + 1) * c := Nat.le_mul_of_pos_left c (by omega)
        omega
      rw [List.getElem?_append_right hge]
      have hidx : (i2 + 1) * c + j - row.length = i2 * c + j := by
        rw [hrl, Nat.succ_mul]
        omega
      rw [hidx]
      have hrec := ih c (fun x hx => hrows _ (List.mem_cons_of_mem _ hx)) i2 j
        (by simpa using hi) hj
      rw [hrec]
      simp [gat, gget]

theorem copyRows_flatten : ∀ (rows rows0 : List (List ℚ)) (c : Nat),
    rows.length = rows0.length → (∀ row ∈ rows, row.length = c) →
    (∀ row ∈ rows0, row.length = c) → copyRows rows rows0.flatten = rows0 := by
  intro rows
  induction rows with
  | nil =>
    intro rows0 c hlen _ _
    cases rows0 with
    | nil => rfl
    | cons r rs => simp at hlen
  | cons row rest ih =>
    intro rows0 c hlen h1 h2
    cases rows0 with
    | nil => simp at hlen
    | cons row0 rest0 =>
      have hl : row.length = row0.length := by
        rw [h1 row (List.mem_cons_self _ _), h2 row0 (List.mem_cons_self _ _)]
      rw [List.flatten_cons, copyRows, hl, List.take_left, List.drop_left]
      congr 1
      exact ih rest0 c (by simpa using hlen)
        (fun x hx => h1 _ (List.mem_cons_of_mem _ hx))
        (fun x hx => h2 _ (List.mem_cons_of_mem _ hx))

/-- C8: converting a well-formed non-empty matrix to the flat row-major
interop record and back (through any receiver) returns the identical
matrix; the record stores `nrows * ncols` values with cell `[i][j]` at
offset `i * ncols + j`; converting an empty matrix fails with
`MalformedInput`. -/
theorem claim8_roundtrip :
    (∀ (m self : Matrix), m.WF → 0 < m.nrows → 0 < m.ncols →
      ∃ cm : ContinuousMatrix, m.toContinuousMatrix = .ok cm
        ∧ cm.nrows = m.nrows ∧ cm.ncols = m.ncols
        ∧ cm.length = m.nrows * m.ncols
        ∧ (∀ i j, i < m.nrows → j < m.ncols →
            cm.data[i * m.ncols + j]?.getD 0 = m.entry i j)
        ∧ self.fromContinuousMatrix cm = .ok m)
    ∧ (∀ m : Matrix, m.nrows = 0 ∨ m.ncols = 0 →
        m.toContinuousMatrix = .error .malformedInput) := by
  constructor
  · intro m self hWF h1 h2
    have hlen : m.data.flatten.length = m.nrows * m.ncols := by
      rw [flatten_length m.data m.ncols hWF.2, hWF.1]
    refine ⟨⟨m.nrows, m.ncols, m.nrows * m.ncols, m.data.flatten⟩, ?_, rfl, rfl, rfl, ?_, ?_⟩
    · rw [Matrix.toContinuousMatrix, if_neg (by omega), if_neg (by simp [hlen])]
    · intro i j hi hj
      exact flatten_getElem m.data m.ncols hWF.2 i j (by rw [hWF.1]; omega) hj
    · rw [Matrix.fromContinuousMatrix,
        if_neg (show ¬(m.nrows = 0 ∨ m.ncols = 0) by omega)]
      have hrows : copyRows (self.resize m.nrows m.ncols).data m.data.flatten = m.data := by
        refine copyRows_flatten _ _ m.ncols ?_ (resize_WF self m.nrows m.ncols).2 hWF.2
        rw [(resize_WF self m.nrows m.ncols).1, hWF.1]
        rfl
      rw [hrows]
      rfl
  · intro m h
    rw [Matrix.toContinuousMatrix, if_pos h]

/-- Witness for C8: the `2×2` matrix `[[1,2],[3,4]]` through the flat form
and back via the empty receiver, plus the empty matrix failing. -/
theorem claim8_roundtrip_witness :
    (∃ cm : ContinuousMatrix,
      Matrix.toContinuousMatrix ⟨2, 2, [[1, 2], [3, 4]]⟩ = .ok cm
      ∧ cm.nrows = (Matrix.mk 2 2 [[1, 2], [3, 4]]).nrows
      ∧ cm.ncols = (Matrix.mk 2 2 [[1, 2], [3, 4]]).ncols
      ∧ cm.length = (Matrix.mk 2 2 [[1, 2], [3, 4]]).nrows *
          (Matrix.mk 2 2 [[1, 2], [3, 4]]).ncols
      ∧ (∀ i j, i < (Matrix.mk 2 2 [[1, 2], [3, 4]]).nrows →
          j < (Matrix.mk 2 2 [[1, 2], [3, 4]]).ncols →
          cm.data[i * (Matrix.mk 2 2 [[1, 2], [3, 4]]).ncols + j]?.getD 0 =
            Matrix.entry ⟨2, 2, [[1, 2], [3, 4]]⟩ i j)
      ∧ Matrix.fromContinuousMatrix Matrix.mkEmpty cm = .ok ⟨2, 2, [[1, 2], [3, 4]]⟩)
    ∧ Matrix.toContinuousMatrix ⟨0, 5, []⟩ = .error .malformedInput :=
  ⟨claim8_roundtrip.1 ⟨2, 2, [[1, 2], [3, 4]]⟩ Matrix.mkEmpty ⟨rfl, by decide⟩
    (by decide) (by decide),
   claim8_roundtrip.2 ⟨0, 5, []⟩ (Or.inl rfl)⟩

/-! ## Frame behaviour of the operations

In the C++ source every write inside `Matrix::inverse`, `Matrix::transpose`
and the arithmetic operators targets a local container (`mat`, `mat_inv`,
`mat_t`, `mat_add`, `mat_minus`, `mat_mul`); `operator+ - *` even take
their operands by const reference.  Threading the operands explicitly
through such a call therefore returns them exactly as they entered,
whether the call succeeds or throws; these `...Call` forms record that
calling convention, and the embedding's operations are pure functions of
the operand values (no hidden state). -/

/-- A call to `Matrix::inverse` observed with its receiver: result plus the
receiver after the call. -/
def inverseCall (self : Matrix) : Except MErr Matrix × Matrix :=
  (self.inverse, self)

/-- A call to `Matrix::transpose` observed with its receiver. -/
def transposeCall (self : Matrix) : Matrix × Matrix :=
  (self.transpose, self)

/-- A call to `operator+` observed with both operands. -/
def addCall (lhs rhs : Matrix) : Except MErr Matrix × Matrix × Matrix :=
  (add lhs rhs, lhs, rhs)

/-- A call to `operator-` observed with both operands. -/
def subCall (lhs rhs : Matrix) : Except MErr Matrix × Matrix × Matrix :=
  (sub lhs rhs, lhs, rhs)

/-- A call to `operator*` observed with both operands. -/
def mulCall (lhs rhs : Matrix) : Except MErr Matrix × Matrix × Matrix :=
  (mul lhs rhs, lhs, rhs)

/-- C9: `inverse`, `transpose`, `+`, `-` and `*` leave every operand with
exactly the shape and cells it had before the call, whether the call
succeeds or fails; each produces its result as a fresh value (the `...Call`
observations return the operands unchanged alongside the result of the
pure operation). -/
theorem claim9_operands_unchanged : ∀ A B : Matrix,
    (inverseCall A).2 = A ∧ (transposeCall A).2 = A
    ∧ (addCall A B).2 = (A, B) ∧ (subCall A B).2 = (A, B) ∧ (mulCall A B).2 = (A, B)
    ∧ (inverseCall A).1 = A.inverse ∧ (transposeCall A).1 = A.transpose
    ∧ (addCall A B).1 = add A B ∧ (subCall A B).1 = sub A B
    ∧ (mulCall A B).1 = mul A B :=
  fun _ _ => ⟨rfl, rfl, rfl, rfl, rfl, rfl, rfl, rfl, rfl, rfl⟩

end MatrixCpp
